import Mathlib

/-!
Verification development for the whiteout reversible text-rewriting filter.

The embedding follows the live module tree of the crate: `parser/mod.rs`
(`Parser::parse`, `Parser::apply_decorations`) with the four detectors
`parser/simple.rs`, `parser/inline.rs`, `parser/block.rs`, `parser/partial.rs`,
the transforms `transform/clean.rs` / `transform/smudge.rs`, and the store
`storage/local.rs`.  Text is a list of characters; the sources only ever meet
ASCII, where Rust byte offsets and character offsets coincide.  The regex
patterns of the detectors are compiled by hand into deterministic matchers
that implement exactly the backtracking semantics of the `regex` crate on the
three patterns involved (notes at each definition).
-/

namespace Whiteout

/-- Text as a list of characters (Rust `String` / `&str`). -/
abbrev Str := List Char

/-- A Lean string literal as character-list text. -/
def strOf (x : String) : Str := x.data

/-- Whitespace, as the regex class `\s` and Rust `str::trim` see it on the
ASCII inputs this grammar meets. -/
def isWs (c : Char) : Bool :=
  c = ' ' || c = '\t' || c = '\n' || c = '\r' || c = '\x0b' || c = '\x0c'

/-- Drop leading whitespace (the regex `\s*`, taken greedily). -/
def dropWs : Str → Str
  | [] => []
  | c :: r => if isWs c then dropWs r else c :: r

/-- Rust `str::trim`. -/
def trimStr (l : Str) : Str := (dropWs (dropWs l).reverse).reverse

/-- Rust `line.trim().is_empty()`. -/
def blankLine (l : Str) : Bool := (trimStr l).isEmpty

/-- Rust `str::contains` with a literal needle. -/
def containsSub (needle : Str) : Str → Bool
  | [] => needle.isEmpty
  | c :: r => needle.isPrefixOf (c :: r) || containsSub needle r

/-- Consume an exact literal token at the head of `l`. -/
def stripTok (tok l : Str) : Option Str :=
  if tok.isPrefixOf l then some (l.drop tok.length) else none

/-- The comment-delimiter alternation `(?://|#|--|/\*|\*)` of the anchored
block/simple patterns.  The alternatives are tried in the regex order; no two
of them can consume at the same position, so the first hit is the match. -/
def delimAny (l : Str) : Option Str :=
  (stripTok (strOf "//") l).orElse fun _ =>
  (stripTok (strOf "#") l).orElse fun _ =>
  (stripTok (strOf "--") l).orElse fun _ =>
  (stripTok (strOf "/*") l).orElse fun _ =>
  stripTok (strOf "*") l

/-- The anchored marker-line pattern `^\s*(?://|#|--|/\*|\*)\s*TOK\s*(?:\*/)?$`
shared by the simple, block-start and block-end patterns.  After the token the
remainder must be whitespace optionally followed by a final `*/`; greedy `\s*`
with the optional literal and the `$` anchor admits exactly those remainders
whose whitespace-stripped form is empty or the two characters `*/`. -/
def markerLineMatch (tok : Str) (l : Str) : Bool :=
  match delimAny (dropWs l) with
  | none => false
  | some r1 =>
    match stripTok tok (dropWs r1) with
    | none => false
    | some r2 => decide (dropWs r2 = [] ∨ dropWs r2 = strOf "*/")

/-- `START_PATTERN` of `parser/block.rs`. -/
def startMatch (l : Str) : Bool := markerLineMatch (strOf "@whiteout-start") l

/-- `END_PATTERN` of `parser/block.rs`. -/
def endMatch (l : Str) : Bool := markerLineMatch (strOf "@whiteout-end") l

/-- `PATTERN` of `parser/simple.rs` (the bare `@whiteout` marker line). -/
def simplePatMatch (l : Str) : Bool := markerLineMatch (strOf "@whiteout") l

/-- Finish one line before a `\n`: Rust `str::lines` strips a final `\r`
(`\r\n` is a single line ending).  `cur` holds the reversed characters. -/
def finishLine (cur : Str) : Str :=
  match cur with
  | '\r' :: r => r.reverse
  | _ => cur.reverse

/-- Worker for `linesOf`; `cur` is the reversed current line.  The final
unterminated line keeps a trailing `\r` and is dropped when empty. -/
def linesOfAux (cur : Str) : Str → List Str
  | [] => if cur.isEmpty then [] else [cur.reverse]
  | c :: rest =>
    if c = '\n' then finishLine cur :: linesOfAux [] rest
    else linesOfAux (c :: cur) rest

/-- Rust `str::lines`. -/
def linesOf (content : Str) : List Str := linesOfAux [] content

/-- `Vec<String>::join("\n")`. -/
def joinNl : List Str → Str
  | [] => []
  | [l] => l
  | l :: r => l ++ '\n' :: joinNl r

/-- `PartialReplacement` of `parser/mod.rs`; `stop` renders the source field
`end` (a Lean keyword).  Spans are half-open column ranges. -/
structure Replacement where
  start : Nat
  stop : Nat
  local_value : Str
  committed_value : Str
deriving DecidableEq

/-- `Decoration` of `parser/mod.rs`. -/
inductive Decoration where
  | Inline (line : Nat) (local_value committed_value : Str)
  | Block (start_line end_line : Nat) (local_content committed_content : Str)
  | Partial (line : Nat) (replacements : List Replacement)
deriving DecidableEq

/-- The inline pattern's delimiter alternation `(?://|#|--)`; the alternatives
cannot consume at the same position, so the first hit is the match. -/
def delimInline (l : Str) : Option Str :=
  (stripTok (strOf "//") l).orElse fun _ =>
  (stripTok (strOf "#") l).orElse fun _ =>
  stripTok (strOf "--") l

/-- The tail `\s*(?://|#|--)\s*@whiteout:\s*(.+?)$` of `INLINE_PATTERN`, tried
against the text after the first capture.  Both `\s*` runs are forced to be
maximal (a shorter run would put a whitespace character where the delimiter or
the `@` must stand).  The returned text is everything after the colon: the
engine splits it as `\s*` plus the lazy second capture, and since the caller
trims the capture, trimming the returned text gives the same value.  `(.+?)`
needs at least one character, so an empty remainder is a failed match. -/
def inlineTail (rest : Str) : Option Str :=
  match delimInline (dropWs rest) with
  | none => none
  | some r1 =>
    match stripTok (strOf "@whiteout:") (dropWs r1) with
    | none => none
    | some r2 => if r2.isEmpty then none else some r2

/-- The lazy anchored first capture `^(.+?)` of `INLINE_PATTERN`: the shortest
nonempty prefix whose remainder matches the tail pattern.  Returns the capture
and the text after the colon. -/
def inlineScan (acc : Str) : Str → Option (Str × Str)
  | [] => none
  | c :: rest =>
    match inlineTail rest with
    | some r => some (acc ++ [c], r)
    | none => inlineScan (acc ++ [c]) rest

/-- One line of `InlineParser::parse`: lines containing the escape form are
skipped before any pattern match; captures are trimmed. -/
def inlineLineDecoration (idx : Nat) (l : Str) : List Decoration :=
  if containsSub (strOf "\\@whiteout:") l then []
  else
    match inlineScan [] l with
    | some (a, r) => [ Decoration.Inline (idx + 1) (trimStr a) (trimStr r)]
    | none => []

def inlineParseAux (idx : Nat) : List Str → List Decoration
  | [] => []
  | l :: rest => inlineLineDecoration idx l ++ inlineParseAux (idx + 1) rest

/-- `InlineParser::parse`. -/
def inlineParse (content : Str) : List Decoration := inlineParseAux 0 (linesOf content)

/-- The recognition test of `SimpleParser::parse`: the anchored bare-marker
pattern plus the escape and longer-marker `contains` exclusions. -/
def simpleCond (l : Str) : Bool :=
  simplePatMatch l
    && !(containsSub (strOf "\\@whiteout") l)
    && !(containsSub (strOf "@whiteout-start") l)
    && !(containsSub (strOf "@whiteout-end") l)
    && !(containsSub (strOf "@whiteout:") l)
    && !(containsSub (strOf "@whiteout-partial") l)

/-- The scanning loop of `SimpleParser::parse`: a recognized marker line takes
the single next line as local content (skipping past it); a marker on the
final line produces nothing.  `fuel` only bounds the recursion: every step
advances the scan index, so `lines.length + 1` can never run out. -/
def simpleParseAux (lines : List Str) : Nat → Nat → List Decoration
  | 0, _ => []
  | fuel + 1, i =>
    if i < lines.length then
      if simpleCond (lines.getD i []) then
        if i + 1 < lines.length then
          Decoration.Block (i + 1) (i + 2) (lines.getD (i + 1) []) []
            :: simpleParseAux lines fuel (i + 2)
        else simpleParseAux lines fuel (i + 1)
      else simpleParseAux lines fuel (i + 1)
    else []

/-- `SimpleParser::parse`. -/
def simpleParse (content : Str) : List Decoration :=
  simpleParseAux (linesOf content) ((linesOf content).length + 1) 0

/-- The local-content loop of `BlockParser::parse`: the first index `≥ i`
whose line matches `END_PATTERN`, or `lines.length`.  `fuel` only bounds the
recursion; every step advances the index. -/
def findEndAux (lines : List Str) : Nat → Nat → Nat
  | 0, i => i
  | fuel + 1, i =>
    if i < lines.length then
      if endMatch (lines.getD i []) then i else findEndAux lines fuel (i + 1)
    else i

def findEnd (lines : List Str) (i : Nat) : Nat :=
  findEndAux lines (lines.length + 1) i

/-- The committed-content loop of `BlockParser::parse`, with its three break
conditions (look-ahead start marker; a marker line itself; after a push, end
of input, a blank next line or a start-marker next line).  The pushed list
`acc ++ [line]` renders the source's `committed_lines` after its `push`.
`fuel` only bounds the recursion; every step advances the index. -/
def collectCommittedAux (lines : List Str) : Nat → Nat → List Str → List Str × Nat
  | 0, i, acc => (acc, i)
  | fuel + 1, i, acc =>
    if i < lines.length then
      if decide (i + 1 < lines.length) && startMatch (lines.getD (i + 1) []) then (acc, i)
      else if startMatch (lines.getD i []) || endMatch (lines.getD i []) then (acc, i)
      else if !(acc ++ [lines.getD i []]).isEmpty
          && (decide (lines.length ≤ i + 1) || blankLine (lines.getD (i + 1) [])
              || startMatch (lines.getD (i + 1) [])) then (acc ++ [lines.getD i []], i + 1)
      else collectCommittedAux lines fuel (i + 1) (acc ++ [lines.getD i []])
    else (acc, i)

def collectCommitted (lines : List Str) (i : Nat) (acc : List Str) : List Str × Nat :=
  collectCommittedAux lines (lines.length + 1) i acc

/-- The outer loop of `BlockParser::parse`.  `fuel` only bounds the recursion;
every step advances the scan index, so `lines.length + 1` is always enough.
An unterminated block drives the index to the end of input and the loop
exits with no decoration. -/
def blockParseAux (lines : List Str) : Nat → Nat → List Decoration
  | 0, _ => []
  | fuel + 1, i =>
    if i < lines.length then
      if startMatch (lines.getD i [])
          && !(containsSub (strOf "\\@whiteout-start") (lines.getD i [])) then
        let j := findEnd lines (i + 1)
        if j < lines.length then
          let locals := (lines.drop (i + 1)).take (j - (i + 1))
          let ck := collectCommitted lines (j + 1) []
          Decoration.Block (i + 1) ((i + 1) + locals.length + 1)
              (joinNl locals) (joinNl ck.1)
            :: blockParseAux lines fuel ck.2
        else []
      else blockParseAux lines fuel (i + 1)
    else []

/-- `BlockParser::parse`. -/
def blockParse (content : Str) : List Decoration :=
  blockParseAux (linesOf content) ((linesOf content).length + 1) 0

/-- `DECORATOR_PATTERN` (`//\s*@whiteout-partial`) tried at the head of `l`;
the greedy `\s*` is forced maximal by the literal that follows. -/
def decoratorHere (l : Str) : Bool :=
  match stripTok (strOf "//") l with
  | none => false
  | some r1 => (stripTok (strOf "@whiteout-partial") (dropWs r1)).isSome

/-- `DECORATOR_PATTERN.is_match`: the unanchored search over the line. -/
def decoratorMatch : Str → Bool
  | [] => false
  | c :: r => decoratorHere (c :: r) || decoratorMatch r

/-- One anchored attempt of `PATTERN` (`\[\[([^|]+)\|\|([^\]]+)\]\]`).  Both
character-class repetitions are greedy and cannot backtrack usefully: a
shorter first run would put a non-`|` character under `\|\|`, a shorter
second run a non-`]` character under `\]\]`.  Returns the two captures and
the text after the match. -/
def bracketTokenAt (l : Str) : Option (Str × Str × Str) :=
  match stripTok (strOf "[[") l with
  | none => none
  | some r1 =>
    let g1 := r1.takeWhile (fun c => c ≠ '|')
    if g1.isEmpty then none
    else
      match stripTok (strOf "||") (r1.drop g1.length) with
      | none => none
      | some r2 =>
        let g2 := r2.takeWhile (fun c => c ≠ ']')
        if g2.isEmpty then none
        else
          match stripTok (strOf "]]") (r2.drop g2.length) with
          | none => none
          | some r3 => some (g1, g2, r3)

/-- `captures_iter`: leftmost matches, resuming after each match.  `pos` is
the column of the head of the remaining text; `fuel` only bounds the
recursion (the text shrinks every step, so its length is always enough). -/
def partialScanAux (pos : Nat) : Nat → Str → List Replacement
  | 0, _ => []
  | _, [] => []
  | fuel + 1, c :: r =>
    match bracketTokenAt (c :: r) with
    | some (g1, g2, rest) =>
      let len := (c :: r).length - rest.length
      { start := pos, stop := pos + len, local_value := g1, committed_value := g2 }
        :: partialScanAux (pos + len) fuel rest
    | none => partialScanAux (pos + 1) fuel r

/-- All bracket-token matches of a line, with their column spans. -/
def partialScan (l : Str) : List Replacement := partialScanAux 0 l.length l

/-- One line of `PartialParser::parse`: only lines carrying the opt-in
decorator are scanned, and an empty match list yields no decoration. -/
def partialLineDecoration (idx : Nat) (l : Str) : List Decoration :=
  if !(decoratorMatch l) then []
  else if (partialScan l).isEmpty then []
  else [ Decoration.Partial (idx + 1) (partialScan l)]

def partialParseAux (idx : Nat) : List Str → List Decoration
  | [] => []
  | l :: rest => partialLineDecoration idx l ++ partialParseAux (idx + 1) rest

/-- `PartialParser::parse`. -/
def partialParse (content : Str) : List Decoration := partialParseAux 0 (linesOf content)

/-- `Parser::parse`: Simple, then Inline, then Block, then Partial, simply
concatenated.  (All four always return `Ok`; the embedding is total.) -/
def parseAll (content : Str) : List Decoration :=
  simpleParse content ++ inlineParse content ++ blockParse content ++ partialParse content

/-- The first `Block` decoration anchored at line number `n` (the inner
`for`-with-`break` of `apply_decorations`). -/
def findBlockAt : List Decoration → Nat → Option (Nat × Nat × Str × Str)
  | [], _ => none
  | Decoration.Block s e lc cc :: rest, n =>
    if n = s then some (s, e, lc, cc) else findBlockAt rest n
  | _ :: rest, n => findBlockAt rest n

/-- The first `Inline` decoration at line number `n`. -/
def findInlineAt : List Decoration → Nat → Option (Str × Str)
  | [], _ => none
  | Decoration.Inline m lv cv :: rest, n =>
    if n = m then some (lv, cv) else findInlineAt rest n
  | _ :: rest, n => findInlineAt rest n

/-- The first `Partial` decoration at line number `n`. -/
def findPartialAt : List Decoration → Nat → Option (List Replacement)
  | [], _ => none
  | Decoration.Partial m reps :: rest, n =>
    if n = m then some reps else findPartialAt rest n
  | _ :: rest, n => findPartialAt rest n

/-- `String::replace_range(a..b, nv)` on character positions. -/
def replaceRange (l : Str) (a b : Nat) (nv : Str) : Str :=
  l.take a ++ nv ++ l.drop b

/-- The rewriting of one `Replacement` in `apply_decorations`: smudge rebuilds
the bracket token, clean substitutes the bare committed value. -/
def repNewValue (useLocal : Bool) (r : Replacement) : Str :=
  if useLocal then
    strOf "[[" ++ r.local_value ++ strOf "||" ++ r.committed_value ++ strOf "]]"
  else r.committed_value

/-- The partial-replacement loop of `apply_decorations`: replacements applied
over the reversed list, each guarded by `start < len` and clamped at the
current length. -/
def applyReps (useLocal : Bool) (line : Str) (reps : List Replacement) : Str :=
  reps.reverse.foldl
    (fun pl r =>
      if r.start < pl.length then
        replaceRange pl r.start (min r.stop pl.length) (repNewValue useLocal r)
      else pl)
    line

/-- The per-line loop of `Parser::apply_decorations` (the live version in
`parser/mod.rs`), with its `skip_until` threshold and the Block > Inline >
Partial precedence.  In clean direction the block branch emits only the
committed lines (no markers) and the inline branch only the committed value;
in smudge direction the inline branch re-attaches the marker with quotes
around the committed value (`format!("{} // @whiteout: \"{}\"", ..)`). -/
def applyGo (allLines : List Str) (decs : List Decoration) (useLocal : Bool) :
    Nat → Nat → Nat → List Str
  | 0, _, _ => []
  | fuel + 1, i, skipUntil =>
    if i < allLines.length then
      let line := allLines.getD i []
      let n := i + 1
      if n ≤ skipUntil then applyGo allLines decs useLocal fuel (i + 1) skipUntil
      else
        match findBlockAt decs n with
        | some (_, e, lc, cc) =>
          if useLocal then
            (line :: linesOf lc
                ++ (if e ≤ allLines.length then [allLines.getD (e - 1) []] else []))
              ++ applyGo allLines decs useLocal fuel (i + 1) (e + (linesOf cc).length)
          else
            (if !cc.isEmpty then linesOf cc else [])
              ++ applyGo allLines decs useLocal fuel (i + 1) (e + (linesOf cc).length)
        | none =>
          match findInlineAt decs n with
          | some (lv, cv) =>
            (if useLocal then lv ++ strOf " // @whiteout: \"" ++ cv ++ strOf "\"" else cv)
              :: applyGo allLines decs useLocal fuel (i + 1) skipUntil
          | none =>
            match findPartialAt decs n with
            | some reps =>
              applyReps useLocal line reps
                :: applyGo allLines decs useLocal fuel (i + 1) skipUntil
            | none => line :: applyGo allLines decs useLocal fuel (i + 1) skipUntil
    else []

/-- `Parser::apply_decorations`: the emitted lines joined with `"\n"` (the
live version appends no trailing newline).  `fuel` only bounds the loop;
every step advances the line index, so `length + 1` can never run out. -/
def applyDecorations (content : Str) (decs : List Decoration) (useLocal : Bool) : Str :=
  joinNl (applyGo (linesOf content) decs useLocal ((linesOf content).length + 1) 0 0)

/-- The value store's entry map, keyed by composite storage key.  Only the
key-to-value view matters to the transforms. -/
abbrev Store := List (Str × Str)

/-- `StorageData::entries` lookup (`get_value` without the error wrapper). -/
def storeGet (st : Store) (k : Str) : Option Str :=
  match st with
  | [] => none
  | (k', v) :: rest => if k' = k then some v else storeGet rest k

/-- `HashMap::insert`: replace an existing key or add a new entry. -/
def storeInsert (st : Store) (k v : Str) : Store :=
  match st with
  | [] => [(k, v)]
  | (k', v') :: rest =>
    if k' = k then (k, v) :: rest else (k', v') :: storeInsert rest k v

def natToStrAux : Nat → Nat → Str
  | 0, _ => []
  | fuel + 1, n =>
    if n < 10 then [Char.ofNat (48 + n)]
    else natToStrAux fuel (n / 10) ++ [Char.ofNat (48 + n % 10)]

/-- Decimal rendering of a line number (`format!` on `usize`). -/
def natToStr (n : Nat) : Str := natToStrAux (n + 1) n

/-- `LocalStorage::make_storage_key` for a path already relative to the
project root (`strip_prefix` is the identity there). -/
def makeStorageKey (path key : Str) : Str := path ++ strOf "::" ++ key

def keyInline (line : Nat) : Str := strOf "inline_" ++ natToStr line

def keyBlock (startLine : Nat) : Str := strOf "block_" ++ natToStr startLine

def keyPartial (line idx : Nat) : Str :=
  strOf "partial_" ++ natToStr line ++ strOf "_" ++ natToStr idx

/-- The store-all-local-values loop of `transform/clean.rs` for one
decoration. -/
def storeDecoration (path : Str) (st : Store) : Decoration → Store
  | Decoration.Inline line lv _ =>
    storeInsert st (makeStorageKey path (keyInline line)) lv
  | Decoration.Block s _ lc _ =>
    storeInsert st (makeStorageKey path (keyBlock s)) lc
  | Decoration.Partial line reps =>
    reps.enum.foldl
      (fun acc p =>
        storeInsert acc (makeStorageKey path (keyPartial line p.1)) p.2.local_value)
      st

/-- `transform::clean::apply`: parse, early-return the content untouched when
no decoration was found, otherwise store every local value and apply the
decorations in clean direction.  Returns the output and the updated store. -/
def clean (content path : Str) (st : Store) : Str × Store :=
  let decs := parseAll content
  if decs.isEmpty then (content, st)
  else (applyDecorations content decs false, decs.foldl (storeDecoration path) st)

/-- The recover-from-store pass of `transform/smudge.rs` for one decoration:
a found entry replaces the parsed local value, a missing key keeps it. -/
def updateDecoration (path : Str) (st : Store) : Decoration → Decoration
  | Decoration.Inline line lv cv =>
    Decoration.Inline line
      ((storeGet st (makeStorageKey path (keyInline line))).getD lv) cv
  | Decoration.Block s e lc cc =>
    Decoration.Block s e
      ((storeGet st (makeStorageKey path (keyBlock s))).getD lc) cc
  | Decoration.Partial line reps =>
    Decoration.Partial line
      (reps.enum.map fun p =>
        { p.2 with
          local_value :=
            (storeGet st (makeStorageKey path (keyPartial line p.1))).getD
              p.2.local_value })

/-- `transform::smudge::apply`: parse, early-return on no decorations,
otherwise recover local values from the store and apply in smudge
direction. -/
def smudge (content path : Str) (st : Store) : Str :=
  let decs := parseAll content
  if decs.isEmpty then content
  else applyDecorations content (decs.map (updateDecoration path st)) true

/-- The line number a `Block` decoration is anchored at. -/
def blockAnchor : Decoration → Option Nat
  | Decoration.Block s _ _ _ => some s
  | _ => none

/-- The line number an `Inline` decoration is anchored at. -/
def inlineAnchor : Decoration → Option Nat
  | Decoration.Inline m _ _ => some m
  | _ => none

/-- The line number a `Partial` decoration is anchored at. -/
def partialAnchor : Decoration → Option Nat
  | Decoration.Partial m _ => some m
  | _ => none

/-- Whether text ends with a newline character. -/
def endsNl (l : Str) : Bool := l.getLast? = some '\n'

/-- The spec's notion of a comment (marker-prefixed) line: one of the
recognized comment delimiters after leading whitespace.  Stated for
comparison only; the committed-content loop of `BlockParser::parse` never
performs such a check. -/
def isCommentLine (l : Str) : Bool := (delimAny (dropWs l)).isSome

/-- Filesystem operations, for the persistence path of the store. -/
inductive FsOp where
  | createDir (p : Str)
  | truncate (p : Str)
  | writeAll (p : Str) (data : Str)
  | syncAll (p : Str)
  | renameFile (src dst : Str)
deriving DecidableEq

/-- The persistence tail of `LocalStorage::store_value` (`storage/local.rs`
lines 71-75): `fs::create_dir_all` on the store directory, then
`fs::write(&self.storage_path, content)`, which opens the store file itself
with truncation and writes the serialized bytes in place.
`AtomicFile::write` (`storage/atomic.rs`) is not called by `LocalStorage`. -/
def storeValuePersistOps (parent storagePath serialized : Str) : List FsOp :=
  [FsOp.createDir parent, FsOp.truncate storagePath,
   FsOp.writeAll storagePath serialized]

/-- The protocol the claim describes, from its words: the serialized data
goes to a temporary file — never directly to the store file — which is then
renamed over the store file.  (Spec-side predicate, for comparison with the
operations the source performs.) -/
def usesTempSyncRename (ops : List FsOp) (target : Str) : Bool :=
  ops.all (fun op =>
    match op with
    | FsOp.truncate p => decide (p ≠ target)
    | FsOp.writeAll p _ => decide (p ≠ target)
    | _ => true)
  && ops.any (fun op =>
    match op with
    | FsOp.renameFile _ dst => decide (dst = target)
    | _ => false)

/-- The store-file contents a reader or a crash can observe while a
truncate-then-write runs over previous content `old`: the old content, the
empty truncated file, and every prefix of the new data. -/
def observableStates (old serialized : Str) : List Str :=
  old :: (List.range (serialized.length + 1)).map fun k => serialized.take k

section Lemmas

theorem isPrefixOf_iff_pre (a b : Str) : a.isPrefixOf b = true ↔ a <+: b :=
  List.isPrefixOf_iff_prefix

theorem dropWs_suffix (l : Str) : dropWs l <:+ l := by
  induction l with
  | nil => simp [dropWs]
  | cons c r ih =>
    simp only [dropWs]
    split
    · exact ih.trans (List.suffix_cons c r)
    · exact List.suffix_refl _

theorem stripTok_pre {tok l r : Str} (h : stripTok tok l = some r) : tok <+: l := by
  unfold stripTok at h
  split at h
  · exact (isPrefixOf_iff_pre tok l).mp (by assumption)
  · exact absurd h (by simp)

theorem stripTok_suffix {tok l r : Str} (h : stripTok tok l = some r) : r <:+ l := by
  unfold stripTok at h
  split at h
  · cases h; exact List.drop_suffix _ _
  · exact absurd h (by simp)

theorem orElse_some {α : Type} {a : Option α} {f : Unit → Option α} {x : α}
    (h : a.orElse f = some x) : a = some x ∨ f () = some x := by
  cases a <;> simp_all [Option.orElse]

theorem delimAny_suffix {l r : Str} (h : delimAny l = some r) : r <:+ l := by
  unfold delimAny at h
  rcases orElse_some h with h | h
  · exact stripTok_suffix h
  rcases orElse_some h with h | h
  · exact stripTok_suffix h
  rcases orElse_some h with h | h
  · exact stripTok_suffix h
  rcases orElse_some h with h | h
  · exact stripTok_suffix h
  · exact stripTok_suffix h

theorem delimInline_suffix {l r : Str} (h : delimInline l = some r) : r <:+ l := by
  unfold delimInline at h
  rcases orElse_some h with h | h
  · exact stripTok_suffix h
  rcases orElse_some h with h | h
  · exact stripTok_suffix h
  · exact stripTok_suffix h

theorem containsSub_of_pre_of_suffix {tok s l : Str} (h1 : tok <+: s) (h2 : s <:+ l) :
    containsSub tok l = true := by
  obtain ⟨t, rfl⟩ := h2
  induction t with
  | nil =>
    cases s with
    | nil =>
      simp only [List.nil_append]
      have : tok = [] := List.prefix_nil.mp h1
      simp [containsSub, this]
    | cons c r =>
      simp only [List.nil_append, containsSub, Bool.or_eq_true]
      exact Or.inl ((isPrefixOf_iff_pre _ _).mpr h1)
  | cons c t ih =>
    simp only [List.cons_append, containsSub, Bool.or_eq_true]
    exact Or.inr ih

theorem containsSub_mono {n1 n2 l : Str} (hp : n1 <+: n2)
    (h : containsSub n2 l = true) : containsSub n1 l = true := by
  induction l with
  | nil =>
    simp only [containsSub, List.isEmpty_iff] at h ⊢
    subst h
    exact List.prefix_nil.mp hp
  | cons c r ih =>
    simp only [containsSub, Bool.or_eq_true] at h ⊢
    rcases h with h | h
    · exact Or.inl ((isPrefixOf_iff_pre _ _).mpr (hp.trans ((isPrefixOf_iff_pre _ _).mp h)))
    · exact Or.inr (ih h)

theorem markerLineMatch_contains {tok l : Str} (h : markerLineMatch tok l = true) :
    containsSub tok l = true := by
  unfold markerLineMatch at h
  split at h
  · exact absurd h (by simp)
  case h_2 r1 hd =>
    split at h
    · exact absurd h (by simp)
    case h_2 r2 hs =>
      have h1 : tok <+: dropWs r1 := stripTok_pre hs
      have h2 : dropWs r1 <:+ l :=
        (dropWs_suffix r1).trans ((delimAny_suffix hd).trans (dropWs_suffix l))
      exact containsSub_of_pre_of_suffix h1 h2

theorem inlineTail_contains {rest r : Str} (h : inlineTail rest = some r) :
    containsSub (strOf "@whiteout:") rest = true := by
  unfold inlineTail at h
  split at h
  · exact absurd h (by simp)
  case h_2 r1 hd =>
    split at h
    · exact absurd h (by simp)
    case h_2 r2 hs =>
      have h1 : strOf "@whiteout:" <+: dropWs r1 := stripTok_pre hs
      have h2 : dropWs r1 <:+ rest :=
        (dropWs_suffix r1).trans ((delimInline_suffix hd).trans (dropWs_suffix rest))
      exact containsSub_of_pre_of_suffix h1 h2

theorem inlineScan_contains {acc l : Str} {p : Str × Str} (h : inlineScan acc l = some p) :
    containsSub (strOf "@whiteout:") l = true := by
  induction acc, l using inlineScan.induct with
  | case1 acc => simp [inlineScan] at h
  | case2 acc c r r1 ht =>
    simp only [containsSub, Bool.or_eq_true]
    exact Or.inr (inlineTail_contains ht)
  | case3 acc c r ht ih =>
    simp only [inlineScan, ht] at h
    simp only [containsSub, Bool.or_eq_true]
    exact Or.inr (ih h)

theorem decoratorHere_contains {l : Str} (h : decoratorHere l = true) :
    containsSub (strOf "@whiteout-partial") l = true := by
  unfold decoratorHere at h
  split at h
  · exact absurd h (by simp)
  case h_2 r1 hd =>
    rw [Option.isSome_iff_exists] at h
    obtain ⟨r2, hs⟩ := h
    exact containsSub_of_pre_of_suffix (stripTok_pre hs)
      ((dropWs_suffix r1).trans (stripTok_suffix hd))

theorem decoratorMatch_contains {l : Str} (h : decoratorMatch l = true) :
    containsSub (strOf "@whiteout-partial") l = true := by
  induction l with
  | nil => simp [decoratorMatch] at h
  | cons c r ih =>
    simp only [decoratorMatch, Bool.or_eq_true] at h
    rcases h with h | h
    · exact decoratorHere_contains h
    · simp only [containsSub, Bool.or_eq_true]
      exact Or.inr (ih h)

theorem getD_mem {lines : List Str} {i : Nat} (h : i < lines.length) :
    lines.getD i [] ∈ lines := by
  rw [List.getD_eq_getElem lines [] h]
  exact List.getElem_mem h

/-- The bare-marker token is a prefix of every longer marker token; transport
containment of the longer tokens down to `"@whiteout"`. -/
theorem contains_marker_of_contains_start {l : Str}
    (h : containsSub (strOf "@whiteout-start") l = true) :
    containsSub (strOf "@whiteout") l = true :=
  containsSub_mono (by decide) h

theorem contains_marker_of_contains_colon {l : Str}
    (h : containsSub (strOf "@whiteout:") l = true) :
    containsSub (strOf "@whiteout") l = true :=
  containsSub_mono (by decide) h

theorem contains_marker_of_contains_partial_tok {l : Str}
    (h : containsSub (strOf "@whiteout-partial") l = true) :
    containsSub (strOf "@whiteout") l = true :=
  containsSub_mono (by decide) h

theorem simpleCond_false_of_no_marker {l : Str}
    (h : containsSub (strOf "@whiteout") l = false) : simpleCond l = false := by
  unfold simpleCond
  cases hm : simplePatMatch l with
  | false => simp
  | true => exact absurd (markerLineMatch_contains hm) (by simp [h])

theorem simpleParseAux_nil {lines : List Str}
    (h : ∀ l ∈ lines, containsSub (strOf "@whiteout") l = false) :
    ∀ fuel i, simpleParseAux lines fuel i = [] := by
  intro fuel
  induction fuel with
  | zero => intro i; rfl
  | succ fuel ih =>
    intro i
    simp only [simpleParseAux]
    by_cases hi : i < lines.length
    · have hc : ¬ simpleCond (lines.getD i []) = true := by
        rw [simpleCond_false_of_no_marker (h _ (getD_mem hi))]
        simp
      rw [if_pos hi, if_neg hc]
      exact ih (i + 1)
    · rw [if_neg hi]

theorem inlineLineDecoration_nil_of_no_marker {l : Str} (idx : Nat)
    (h : containsSub (strOf "@whiteout") l = false) :
    inlineLineDecoration idx l = [] := by
  unfold inlineLineDecoration
  split
  · rfl
  · split
    case h_1 p hp =>
      exact absurd (contains_marker_of_contains_colon (inlineScan_contains hp)) (by simp [h])
    · rfl

theorem inlineParseAux_nil {ls : List Str}
    (h : ∀ l ∈ ls, containsSub (strOf "@whiteout") l = false) (idx : Nat) :
    inlineParseAux idx ls = [] := by
  induction ls generalizing idx with
  | nil => rfl
  | cons l rest ih =>
    simp only [inlineParseAux]
    rw [inlineLineDecoration_nil_of_no_marker idx (h l (by simp)),
      ih (fun x hx => h x (by simp [hx])) (idx + 1)]
    rfl

theorem startMatch_false_of_no_marker {l : Str}
    (h : containsSub (strOf "@whiteout") l = false) : startMatch l = false := by
  cases hm : startMatch l with
  | false => rfl
  | true =>
    exact absurd (contains_marker_of_contains_start (markerLineMatch_contains hm))
      (by simp [h])

theorem blockParseAux_nil_of_no_start {lines : List Str}
    (h : ∀ l ∈ lines, startMatch l = false) :
    ∀ fuel i, blockParseAux lines fuel i = [] := by
  intro fuel
  induction fuel with
  | zero => intro i; rfl
  | succ fuel ih =>
    intro i
    simp only [blockParseAux]
    split
    case isTrue hi =>
      rw [if_neg, ih]
      intro hcontra
      rw [Bool.and_eq_true] at hcontra
      have := hcontra.1
      rw [h _ (getD_mem hi)] at this
      exact Bool.noConfusion this
    · rfl

theorem findEndAux_endMatch {lines : List Str} :
    ∀ fuel i, lines.length ≤ fuel + i → findEndAux lines fuel i < lines.length →
      endMatch (lines.getD (findEndAux lines fuel i) []) = true := by
  intro fuel
  induction fuel with
  | zero =>
    intro i hfuel h
    simp only [findEndAux] at h
    exact absurd h (by omega)
  | succ fuel ih =>
    intro i hfuel h
    simp only [findEndAux] at h ⊢
    by_cases hi : i < lines.length
    · rw [if_pos hi] at h ⊢
      by_cases he : endMatch (lines.getD i []) = true
      · rw [if_pos he] at h ⊢
        exact he
      · rw [if_neg he] at h ⊢
        exact ih (i + 1) (by omega) h
    · rw [if_neg hi] at h ⊢
      exact absurd h hi

theorem findEnd_endMatch {lines : List Str} (i : Nat)
    (h : findEnd lines i < lines.length) :
    endMatch (lines.getD (findEnd lines i) []) = true :=
  findEndAux_endMatch _ i (by omega) h

theorem blockParseAux_nil_of_no_end {lines : List Str}
    (h : ∀ l ∈ lines, endMatch l = false) :
    ∀ fuel i, blockParseAux lines fuel i = [] := by
  intro fuel
  induction fuel with
  | zero => intro i; rfl
  | succ fuel ih =>
    intro i
    simp only [blockParseAux]
    split
    case isTrue hi =>
      split
      case isTrue hs =>
        have hlt : ¬ findEnd lines (i + 1) < lines.length := by
          intro hlt
          have hm := findEnd_endMatch (i + 1) hlt
          rw [h _ (getD_mem hlt)] at hm
          exact Bool.noConfusion hm
        rw [if_neg hlt]
      case isFalse hs => exact ih (i + 1)
    · rfl

theorem decoratorMatch_false_of_no_marker {l : Str}
    (h : containsSub (strOf "@whiteout") l = false) : decoratorMatch l = false := by
  cases hm : decoratorMatch l with
  | false => rfl
  | true =>
    exact absurd (contains_marker_of_contains_partial_tok (decoratorMatch_contains hm))
      (by simp [h])

theorem partialLineDecoration_nil_of_no_marker {l : Str} (idx : Nat)
    (h : containsSub (strOf "@whiteout") l = false) :
    partialLineDecoration idx l = [] := by
  unfold partialLineDecoration
  rw [decoratorMatch_false_of_no_marker h]
  rfl

theorem partialParseAux_nil {ls : List Str}
    (h : ∀ l ∈ ls, containsSub (strOf "@whiteout") l = false) (idx : Nat) :
    partialParseAux idx ls = [] := by
  induction ls generalizing idx with
  | nil => rfl
  | cons l rest ih =>
    simp only [partialParseAux]
    rw [partialLineDecoration_nil_of_no_marker idx (h l (by simp)),
      ih (fun x hx => h x (by simp [hx])) (idx + 1)]
    rfl

/-- Marker-free content parses to no decorations at all. -/
theorem parseAll_nil_of_no_marker {content : Str}
    (h : ∀ l ∈ linesOf content, containsSub (strOf "@whiteout") l = false) :
    parseAll content = [] := by
  unfold parseAll simpleParse inlineParse blockParse partialParse
  rw [simpleParseAux_nil h, inlineParseAux_nil h, partialParseAux_nil h,
    blockParseAux_nil_of_no_start (fun l hl => startMatch_false_of_no_marker (h l hl))]
  rfl

/-- `clean` early-returns the content and the store untouched when nothing
parses. -/
theorem clean_id_of_nil (content path : Str) (st : Store)
    (h : parseAll content = []) : clean content path st = (content, st) := by
  simp [clean, h]

/-- `smudge` early-returns the content untouched when nothing parses. -/
theorem smudge_id_of_nil (content path : Str) (st : Store)
    (h : parseAll content = []) : smudge content path st = content := by
  simp [smudge, h]

/-- A line the simple detector recognizes contains no escaped marker (the
escape `contains` check is part of the recognition test). -/
theorem simpleCond_no_esc {l : Str} (h : simpleCond l = true) :
    containsSub (strOf "\\@whiteout") l = false := by
  cases hc : containsSub (strOf "\\@whiteout") l with
  | false => rfl
  | true =>
    exfalso
    unfold simpleCond at h
    rw [hc] at h
    simp at h

/-- Every decoration the simple detector emits is anchored at a recognized
marker line that is not the last line, spans exactly the single following
line, and carries empty committed content. -/
theorem simpleParseAux_shape {lines : List Str} {d : Decoration} :
    ∀ fuel i, d ∈ simpleParseAux lines fuel i →
      ∃ j, i ≤ j ∧ j + 1 < lines.length ∧ simpleCond (lines.getD j []) = true ∧
        d = Decoration.Block (j + 1) (j + 2) (lines.getD (j + 1) []) [] := by
  intro fuel
  induction fuel with
  | zero => intro i h; exact absurd h (List.not_mem_nil d)
  | succ fuel ih =>
    intro i h
    simp only [simpleParseAux] at h
    by_cases hi : i < lines.length
    · rw [if_pos hi] at h
      by_cases hc : simpleCond (lines.getD i []) = true
      · rw [if_pos hc] at h
        by_cases hlt : i + 1 < lines.length
        · rw [if_pos hlt] at h
          rcases List.mem_cons.mp h with rfl | h
          · exact ⟨i, le_refl i, hlt, hc, rfl⟩
          · obtain ⟨j, hj, rest⟩ := ih _ h
            exact ⟨j, by omega, rest⟩
        · rw [if_neg hlt] at h
          obtain ⟨j, hj, rest⟩ := ih _ h
          exact ⟨j, by omega, rest⟩
      · rw [if_neg hc] at h
        obtain ⟨j, hj, rest⟩ := ih _ h
        exact ⟨j, by omega, rest⟩
    · rw [if_neg hi] at h
      exact absurd h (List.not_mem_nil d)

/-- A recognized marker line with a following line is either anchored by a
decoration of its own, or consumed as the local content of the decoration
anchored on the line just before it.  The fuel hypothesis says the scan can
still reach the line; `simpleParse` always starts with enough. -/
theorem simpleParseAux_cover {lines : List Str} :
    ∀ fuel i j, lines.length + 1 ≤ fuel + i → i ≤ j → j + 1 < lines.length →
      simpleCond (lines.getD j []) = true →
      (∃ d ∈ simpleParseAux lines fuel i, blockAnchor d = some (j + 1)) ∨
      (∃ d ∈ simpleParseAux lines fuel i, blockAnchor d = some j) := by
  intro fuel
  induction fuel with
  | zero =>
    intro i j hfuel hij hj hcj
    exact absurd hj (by omega)
  | succ fuel ih =>
    intro i j hfuel hij hj hcj
    simp only [simpleParseAux]
    by_cases hi : i < lines.length
    · rw [if_pos hi]
      by_cases hc : simpleCond (lines.getD i []) = true
      · rw [if_pos hc]
        by_cases hlt : i + 1 < lines.length
        · rw [if_pos hlt]
          by_cases hji : j = i
          · subst hji
            exact Or.inl ⟨_, List.mem_cons_self _ _, rfl⟩
          by_cases hji1 : j = i + 1
          · subst hji1
            exact Or.inr ⟨_, List.mem_cons_self _ _, rfl⟩
          · rcases ih (i + 2) j (by omega) (by omega) hj hcj with ⟨d, hd, ha⟩ | ⟨d, hd, ha⟩
            · exact Or.inl ⟨d, List.mem_cons_of_mem _ hd, ha⟩
            · exact Or.inr ⟨d, List.mem_cons_of_mem _ hd, ha⟩
        · exact absurd hj (by omega)
      · rw [if_neg hc]
        have hij' : i + 1 ≤ j := by
          by_contra hcon
          have hji : j = i := by omega
          subst hji
          exact hc hcj
        exact ih (i + 1) j (by omega) hij' hj hcj
    · exact absurd hj (by omega)

theorem inlineLineDecoration_mem {idx : Nat} {l : Str} {d : Decoration}
    (h : d ∈ inlineLineDecoration idx l) :
    containsSub (strOf "\\@whiteout:") l = false ∧
      ∃ p : Str × Str, inlineScan [] l = some p ∧
        d = Decoration.Inline (idx + 1) (trimStr p.1) (trimStr p.2) := by
  unfold inlineLineDecoration at h
  split at h
  case isTrue => exact absurd h (List.not_mem_nil d)
  case isFalse hesc =>
    split at h
    case h_1 a r hp =>
      rcases List.mem_singleton.mp h with rfl
      exact ⟨Bool.eq_false_iff.mpr hesc, (a, r), hp, rfl⟩
    case h_2 => exact absurd h (List.not_mem_nil d)

theorem inlineParseAux_shape {ls : List Str} {d : Decoration} :
    ∀ idx, d ∈ inlineParseAux idx ls →
      ∃ j, j < ls.length ∧ d ∈ inlineLineDecoration (idx + j) (ls.getD j []) := by
  induction ls with
  | nil => intro idx h; exact absurd h (List.not_mem_nil d)
  | cons l rest ih =>
    intro idx h
    rcases List.mem_append.mp h with h | h
    · exact ⟨0, by simp, by simpa using h⟩
    · obtain ⟨j, hj, hmem⟩ := ih (idx + 1) h
      refine ⟨j + 1, by simpa using hj, ?_⟩
      have harith : idx + 1 + j = idx + (j + 1) := by omega
      rw [harith] at hmem
      simpa using hmem

theorem partialLineDecoration_mem {idx : Nat} {l : Str} {d : Decoration}
    (h : d ∈ partialLineDecoration idx l) :
    decoratorMatch l = true ∧ d = Decoration.Partial (idx + 1) (partialScan l) := by
  unfold partialLineDecoration at h
  split at h
  case isTrue => exact absurd h (List.not_mem_nil d)
  case isFalse hdm =>
    have hd : decoratorMatch l = true := by
      revert hdm
      cases decoratorMatch l <;> simp
    split at h
    case isTrue => exact absurd h (List.not_mem_nil d)
    case isFalse =>
      rcases List.mem_singleton.mp h with rfl
      exact ⟨hd, rfl⟩

theorem partialParseAux_shape {ls : List Str} {d : Decoration} :
    ∀ idx, d ∈ partialParseAux idx ls →
      ∃ j, j < ls.length ∧ d ∈ partialLineDecoration (idx + j) (ls.getD j []) := by
  induction ls with
  | nil => intro idx h; exact absurd h (List.not_mem_nil d)
  | cons l rest ih =>
    intro idx h
    rcases List.mem_append.mp h with h | h
    · exact ⟨0, by simp, by simpa using h⟩
    · obtain ⟨j, hj, hmem⟩ := ih (idx + 1) h
      refine ⟨j + 1, by simpa using hj, ?_⟩
      have harith : idx + 1 + j = idx + (j + 1) := by omega
      rw [harith] at hmem
      simpa using hmem

theorem findEndAux_ge {lines : List Str} : ∀ fuel i, i ≤ findEndAux lines fuel i := by
  intro fuel
  induction fuel with
  | zero => intro i; exact le_refl i
  | succ fuel ih =>
    intro i
    simp only [findEndAux]
    by_cases hi : i < lines.length
    · rw [if_pos hi]
      by_cases he : endMatch (lines.getD i []) = true
      · rw [if_pos he]
      · rw [if_neg he]
        have := ih (i + 1)
        omega
    · rw [if_neg hi]

theorem findEnd_ge (lines : List Str) (i : Nat) : i ≤ findEnd lines i :=
  findEndAux_ge _ i

theorem collectCommittedAux_ge {lines : List Str} :
    ∀ fuel i acc, i ≤ (collectCommittedAux lines fuel i acc).2 := by
  intro fuel
  induction fuel with
  | zero => intro i acc; exact le_refl i
  | succ fuel ih =>
    intro i acc
    simp only [collectCommittedAux]
    by_cases hi : i < lines.length
    · rw [if_pos hi]
      split
      · exact le_refl i
      · split
        · exact le_refl i
        · split
          · omega
          · have := ih (i + 1) (acc ++ [lines.getD i []])
            omega
    · rw [if_neg hi]

theorem collectCommitted_ge (lines : List Str) (i : Nat) (acc : List Str) :
    i ≤ (collectCommitted lines i acc).2 :=
  collectCommittedAux_ge _ i acc

/-- The committed lines are collected contiguously from index `i` on. -/
theorem collectCommittedAux_sub {lines : List Str} :
    ∀ fuel i acc, ∃ k,
      (collectCommittedAux lines fuel i acc).1 = acc ++ (lines.drop i).take k := by
  intro fuel
  induction fuel with
  | zero => intro i acc; exact ⟨0, by simp [collectCommittedAux]⟩
  | succ fuel ih =>
    intro i acc
    simp only [collectCommittedAux]
    by_cases hi : i < lines.length
    · rw [if_pos hi]
      have ht1 : List.take 1 (List.drop i lines) = [lines[i]] := by
        rw [List.drop_eq_getElem_cons hi, List.take_succ_cons, List.take_zero]
      split
      · exact ⟨0, by simp⟩
      · split
        · exact ⟨0, by simp⟩
        · split
          · refine ⟨1, ?_⟩
            rw [ht1, List.getD_eq_getElem lines [] hi]
          · obtain ⟨k, hk⟩ := ih (i + 1) (acc ++ [lines.getD i []])
            refine ⟨k + 1, ?_⟩
            have ht : List.take (k + 1) (List.drop i lines)
                = lines[i] :: List.take k (List.drop (i + 1) lines) := by
              rw [List.drop_eq_getElem_cons hi, List.take_succ_cons]
            rw [hk, ht, List.getD_eq_getElem lines [] hi, List.append_assoc,
              List.singleton_append]
    · rw [if_neg hi]
      exact ⟨0, by simp⟩

theorem collectCommitted_sub (lines : List Str) (i : Nat) (acc : List Str) :
    ∃ k, (collectCommitted lines i acc).1 = acc ++ (lines.drop i).take k :=
  collectCommittedAux_sub _ i acc

/-- No collected committed line is a start- or end-marker line. -/
theorem collectCommittedAux_no_marker {lines : List Str} :
    ∀ fuel i acc l, l ∈ (collectCommittedAux lines fuel i acc).1 →
      l ∈ acc ∨ (startMatch l = false ∧ endMatch l = false) := by
  intro fuel
  induction fuel with
  | zero => intro i acc l hl; exact Or.inl hl
  | succ fuel ih =>
    intro i acc l hl
    simp only [collectCommittedAux] at hl
    by_cases hi : i < lines.length
    · rw [if_pos hi] at hl
      split at hl
      · exact Or.inl hl
      · split at hl
        · exact Or.inl hl
        · rename_i h2
          rw [Bool.not_eq_true, Bool.or_eq_false_iff] at h2
          split at hl
          · rcases List.mem_append.mp hl with hl | hl
            · exact Or.inl hl
            · rcases List.mem_singleton.mp hl with rfl
              exact Or.inr h2
          · rcases ih (i + 1) (acc ++ [lines.getD i []]) l hl with hl' | hl'
            · rcases List.mem_append.mp hl' with hl'' | hl''
              · exact Or.inl hl''
              · rcases List.mem_singleton.mp hl'' with rfl
                exact Or.inr h2
            · exact Or.inr hl'
    · rw [if_neg hi] at hl
      exact Or.inl hl

theorem collectCommitted_no_marker (lines : List Str) (i : Nat) (acc : List Str) :
    ∀ l ∈ (collectCommitted lines i acc).1,
      l ∈ acc ∨ (startMatch l = false ∧ endMatch l = false) :=
  fun l hl => collectCommittedAux_no_marker _ i acc l hl

/-- Every decoration the block detector emits is anchored at an unescaped
start-marker line, ends at the first end-marker line after it, holds the
strictly enclosed lines as local content, and holds the lines collected
after the end marker as committed content. -/
theorem blockParseAux_shape {lines : List Str} {d : Decoration} :
    ∀ fuel i, d ∈ blockParseAux lines fuel i →
      ∃ k, i ≤ k ∧ k < lines.length ∧ startMatch (lines.getD k []) = true ∧
        containsSub (strOf "\\@whiteout-start") (lines.getD k []) = false ∧
        findEnd lines (k + 1) < lines.length ∧
        d = Decoration.Block (k + 1) (findEnd lines (k + 1) + 1)
          (joinNl ((lines.drop (k + 1)).take (findEnd lines (k + 1) - (k + 1))))
          (joinNl (collectCommitted lines (findEnd lines (k + 1) + 1) []).1) := by
  intro fuel
  induction fuel with
  | zero => intro i h; exact absurd h (List.not_mem_nil d)
  | succ fuel ih =>
    intro i h
    simp only [blockParseAux] at h
    by_cases hi : i < lines.length
    · rw [if_pos hi] at h
      by_cases hs : (startMatch (lines.getD i [])
          && !containsSub (strOf "\\@whiteout-start") (lines.getD i [])) = true
      · rw [if_pos hs] at h
        by_cases hj : findEnd lines (i + 1) < lines.length
        · rw [if_pos hj] at h
          rw [Bool.and_eq_true, Bool.not_eq_true'] at hs
          rcases List.mem_cons.mp h with rfl | h
          · refine ⟨i, le_refl i, hi, hs.1, hs.2, hj, ?_⟩
            have h1 : i + 1 ≤ findEnd lines (i + 1) := findEnd_ge lines (i + 1)
            have harith :
                i + 1 + ((lines.drop (i + 1)).take (findEnd lines (i + 1) - (i + 1))).length + 1
                  = findEnd lines (i + 1) + 1 := by
              rw [List.length_take, List.length_drop]
              omega
            rw [harith]
          · obtain ⟨k, hk, rest⟩ := ih _ h
            have hck := collectCommitted_ge lines (findEnd lines (i + 1) + 1) []
            have h1 : i + 1 ≤ findEnd lines (i + 1) := findEnd_ge lines (i + 1)
            exact ⟨k, by omega, rest⟩
        · rw [if_neg hj] at h
          exact absurd h (List.not_mem_nil d)
      · rw [if_neg hs] at h
        obtain ⟨k, hk, rest⟩ := ih _ h
        exact ⟨k, by omega, rest⟩
    · rw [if_neg hi] at h
      exact absurd h (List.not_mem_nil d)

end Lemmas

section Claims

/-- C1: the round-trip property fails on the live pipeline.  Cleaning the
spec's inline scenario stores the local value but emits only the committed
value with the marker stripped, so smudging the clean output (with the store
populated by that clean) parses no decoration and returns the clean text,
not the original. -/
theorem C1_round_trip_fails_live :
    clean (strOf "let k = \"sk-12345\"; // @whiteout: \"REDACTED\"") (strOf "f.rs") []
      = (strOf "\"REDACTED\"",
         [(strOf "f.rs::inline_1", strOf "let k = \"sk-12345\";")]) ∧
    smudge (strOf "\"REDACTED\"") (strOf "f.rs")
        [(strOf "f.rs::inline_1", strOf "let k = \"sk-12345\";")]
      = strOf "\"REDACTED\"" ∧
    strOf "\"REDACTED\"" ≠ strOf "let k = \"sk-12345\"; // @whiteout: \"REDACTED\"" := by
  decide

/-- C2: marker retention fails on the live `apply_decorations`.  Clean of an
inline decoration emits the bare committed value (no `@whiteout:` marker) and
clean of a block emits only the committed lines, dropping both the start and
the end marker. -/
theorem C2_markers_stripped_live :
    (clean (strOf "let k = \"sk-12345\"; // @whiteout: \"REDACTED\"")
        (strOf "f.rs") []).1 = strOf "\"REDACTED\"" ∧
    containsSub (strOf "@whiteout") (strOf "\"REDACTED\"") = false ∧
    (clean (strOf "// @whiteout-start\nconst DEBUG = true;\n// @whiteout-end\nconst DEBUG = false;")
        (strOf "f.rs") []).1 = strOf "const DEBUG = false;" ∧
    containsSub (strOf "@whiteout") (strOf "const DEBUG = false;") = false := by
  decide

/-- C3: bracket-structure preservation fails on the live `apply_decorations`.
Clean of the spec's partial scenario replaces the whole `[[local||committed]]`
token by the bare committed value: no bracket token survives. -/
theorem C3_partial_brackets_stripped_live :
    (clean (strOf "let u = \"[[dev.local||prod.com]]\"; // @whiteout-partial")
        (strOf "f.rs") []).1
      = strOf "let u = \"prod.com\"; // @whiteout-partial" ∧
    containsSub (strOf "[[") (strOf "let u = \"prod.com\"; // @whiteout-partial") = false ∧
    containsSub (strOf "dev.local")
      (strOf "let u = \"prod.com\"; // @whiteout-partial") = false := by
  decide

/-- C4: on content whose lines never mention the `@whiteout` token, no
detector produces a decoration, and both transforms return the content
byte-identical with the value store untouched. -/
theorem C4_identity_on_undecorated (content path : Str) (st : Store)
    (h : ∀ l ∈ linesOf content, containsSub (strOf "@whiteout") l = false) :
    parseAll content = [] ∧ clean content path st = (content, st) ∧
      smudge content path st = content := by
  have hnil := parseAll_nil_of_no_marker h
  exact ⟨hnil, clean_id_of_nil content path st hnil, smudge_id_of_nil content path st hnil⟩

theorem C4_identity_on_undecorated_witness :
    parseAll (strOf "let x = 1;\nlet y = 2;\n") = [] ∧
      clean (strOf "let x = 1;\nlet y = 2;\n") (strOf "f.rs") []
        = (strOf "let x = 1;\nlet y = 2;\n", []) ∧
      smudge (strOf "let x = 1;\nlet y = 2;\n") (strOf "f.rs") []
        = strOf "let x = 1;\nlet y = 2;\n" :=
  C4_identity_on_undecorated (strOf "let x = 1;\nlet y = 2;\n") (strOf "f.rs") []
    (by decide)

/-- C5 counterexample: content holding an unterminated `@whiteout-start` (no
end marker on any line) together with an inline decoration on another line is
rewritten by clean, so the clean output is not identical to the input as the
claim states. -/
theorem C5_fail_open_counterexample :
    (∃ l ∈ linesOf (strOf "// @whiteout-start\nsecret\nx = 1 // @whiteout: y"),
      startMatch l = true) ∧
    (∀ l ∈ linesOf (strOf "// @whiteout-start\nsecret\nx = 1 // @whiteout: y"),
      endMatch l = false) ∧
    (clean (strOf "// @whiteout-start\nsecret\nx = 1 // @whiteout: y")
        (strOf "p.rs") []).1
      ≠ strOf "// @whiteout-start\nsecret\nx = 1 // @whiteout: y" := by
  decide

/-- C5 (amended): with a start marker but no end-marker line before
end-of-input, the block parser emits no decoration at all; and when no other
detector finds a decoration either, clean returns the input identical, the
store untouched — fail-open, no error. -/
theorem C5_unterminated_block_fail_open (content path : Str) (st : Store)
    (_hstart : ∃ l ∈ linesOf content, startMatch l = true)
    (hend : ∀ l ∈ linesOf content, endMatch l = false)
    (hsimple : simpleParse content = []) (hinline : inlineParse content = [])
    (hpart : partialParse content = []) :
    blockParse content = [] ∧ clean content path st = (content, st) := by
  have hb : blockParse content = [] := blockParseAux_nil_of_no_end hend _ _
  have hnil : parseAll content = [] := by
    unfold parseAll
    rw [hsimple, hinline, hb, hpart]
    rfl
  exact ⟨hb, clean_id_of_nil content path st hnil⟩

theorem C5_unterminated_block_fail_open_witness :
    blockParse (strOf "// @whiteout-start\nsecret stuff") = [] ∧
      clean (strOf "// @whiteout-start\nsecret stuff") (strOf "p.rs") []
        = (strOf "// @whiteout-start\nsecret stuff", []) :=
  C5_unterminated_block_fail_open (strOf "// @whiteout-start\nsecret stuff")
    (strOf "p.rs") [] (by decide) (by decide) (by decide) (by decide) (by decide)

/-- C6 counterexample: a line on which a backslash immediately precedes a
`@whiteout-partial` token (while an unescaped decorator also stands on the
line) still yields a Partial decoration, and clean rewrites the line — the
claim's "no detector produces a decoration from that line" fails. -/
theorem C6_escape_line_counterexample :
    containsSub (strOf "\\@whiteout-partial")
      (strOf "let u = \"[[a||b]]\"; // @whiteout-partial \\@whiteout-partial") = true ∧
    partialParse (strOf "let u = \"[[a||b]]\"; // @whiteout-partial \\@whiteout-partial")
      ≠ [] ∧
    (clean (strOf "let u = \"[[a||b]]\"; // @whiteout-partial \\@whiteout-partial")
        (strOf "p.rs") []).1
      ≠ strOf "let u = \"[[a||b]]\"; // @whiteout-partial \\@whiteout-partial" := by
  decide

/-- C6 (amended): per-detector escape behaviour.  A line containing the
escaped token `\@whiteout:` anchors no Inline decoration; one containing
`\@whiteout` anchors no Simple decoration; one containing `\@whiteout-start`
anchors no Block decoration; and a line on which the partial decorator
pattern finds no (unescaped) match anchors no Partial decoration — the
Partial detector itself has no escape check, so only the failure of its
decorator pattern protects an escaped line. -/
theorem C6_escape_behaviour (content : Str) (i : Nat) :
    (containsSub (strOf "\\@whiteout:") ((linesOf content).getD i []) = true →
      ∀ d ∈ inlineParse content, inlineAnchor d ≠ some (i + 1)) ∧
    (containsSub (strOf "\\@whiteout") ((linesOf content).getD i []) = true →
      ∀ d ∈ simpleParse content, blockAnchor d ≠ some (i + 1)) ∧
    (containsSub (strOf "\\@whiteout-start") ((linesOf content).getD i []) = true →
      ∀ d ∈ blockParse content, blockAnchor d ≠ some (i + 1)) ∧
    (decoratorMatch ((linesOf content).getD i []) = false →
      ∀ d ∈ partialParse content, partialAnchor d ≠ some (i + 1)) := by
  refine ⟨?_, ?_, ?_, ?_⟩
  · intro hesc d hd ha
    obtain ⟨j, hj, hmem⟩ := inlineParseAux_shape 0 hd
    obtain ⟨hne, p, hp, rfl⟩ := inlineLineDecoration_mem hmem
    simp only [inlineAnchor, Option.some.injEq] at ha
    have hji : j = i := by omega
    subst hji
    rw [hesc] at hne
    exact Bool.noConfusion hne
  · intro hesc d hd ha
    obtain ⟨j, _, hj1, hc, rfl⟩ := simpleParseAux_shape _ _ hd
    simp only [blockAnchor, Option.some.injEq] at ha
    have hji : j = i := by omega
    subst hji
    have hno := simpleCond_no_esc hc
    rw [hesc] at hno
    exact Bool.noConfusion hno
  · intro hesc d hd ha
    obtain ⟨k, _, hk, hs, hnes, hj, rfl⟩ := blockParseAux_shape _ _ hd
    simp only [blockAnchor, Option.some.injEq] at ha
    have hki : k = i := by omega
    subst hki
    rw [hesc] at hnes
    exact Bool.noConfusion hnes
  · intro hdm d hd ha
    obtain ⟨j, hj, hmem⟩ := partialParseAux_shape 0 hd
    obtain ⟨hdmm, rfl⟩ := partialLineDecoration_mem hmem
    simp only [partialAnchor, Option.some.injEq] at ha
    have hji : j = i := by omega
    subst hji
    rw [hdm] at hdmm
    exact Bool.noConfusion hdmm

theorem C6_escape_behaviour_witness :
    (∀ d ∈ inlineParse (strOf "\\@whiteout: \\@whiteout-start x"),
      inlineAnchor d ≠ some 1) ∧
    (∀ d ∈ simpleParse (strOf "\\@whiteout: \\@whiteout-start x"),
      blockAnchor d ≠ some 1) ∧
    (∀ d ∈ blockParse (strOf "\\@whiteout: \\@whiteout-start x"),
      blockAnchor d ≠ some 1) ∧
    (∀ d ∈ partialParse (strOf "\\@whiteout: \\@whiteout-start x"),
      partialAnchor d ≠ some 1) := by
  obtain ⟨h1, h2, h3, h4⟩ := C6_escape_behaviour (strOf "\\@whiteout: \\@whiteout-start x") 0
  exact ⟨h1 (by decide), h2 (by decide), h3 (by decide), h4 (by decide)⟩

/-- C7 counterexample: the persistence operations of `store_value` write the
serialized data directly over the store file — no temporary file, no sync, no
rename — and the truncate-then-write leaves an observable state (the empty
truncated file) that is neither the previous nor the new store content. -/
theorem C7_store_not_atomic_counterexample :
    usesTempSyncRename
        (storeValuePersistOps (strOf ".whiteout") (strOf ".whiteout/local.toml")
          (strOf "serialized"))
        (strOf ".whiteout/local.toml") = false ∧
    ([] : Str) ∈ observableStates (strOf "old-store") (strOf "new-store") ∧
    ([] : Str) ≠ strOf "old-store" ∧ ([] : Str) ≠ strOf "new-store" := by
  decide

/-- C7 (amended): `store_value` persists by serializing the whole updated
store and writing it in place with `fs::write` (truncate then write); the
temp-file-sync-rename protocol is never used, and a reader or crash mid-write
can observe a state that is neither the fully previous nor the fully new
store file. -/
theorem C7_store_value_direct_write (parent storagePath serialized old : Str)
    (h1 : old ≠ []) (h2 : serialized ≠ []) :
    usesTempSyncRename (storeValuePersistOps parent storagePath serialized) storagePath
      = false ∧
    ∃ st ∈ observableStates old serialized, st ≠ old ∧ st ≠ serialized := by
  constructor
  · simp [usesTempSyncRename, storeValuePersistOps]
  · refine ⟨[], ?_, ?_, ?_⟩
    · simp only [observableStates, List.mem_cons]
      right
      rw [List.mem_map]
      exact ⟨0, by simp, rfl⟩
    · intro hcon
      exact h1 hcon.symm
    · intro hcon
      exact h2 hcon.symm

theorem C7_store_value_direct_write_witness :
    usesTempSyncRename
        (storeValuePersistOps (strOf ".whiteout") (strOf "local.toml") (strOf "v"))
        (strOf "local.toml") = false ∧
    ∃ st ∈ observableStates (strOf "old") (strOf "v"),
      st ≠ strOf "old" ∧ st ≠ strOf "v" :=
  C7_store_value_direct_write (strOf ".whiteout") (strOf "local.toml") (strOf "v")
    (strOf "old") (by decide) (by decide)

/-- C8 counterexample: the committed-content run collected after an end
marker takes any contiguous lines, comment or not — here the non-comment line
`const DEBUG = false;` — and a blank line standing directly after the end
marker is itself collected rather than stopping the run. -/
theorem C8_committed_collection_counterexample :
    blockParse (strOf "// @whiteout-start\nsecret\n// @whiteout-end\nconst DEBUG = false;")
      = [ Decoration.Block 1 3 (strOf "secret") (strOf "const DEBUG = false;")] ∧
    isCommentLine (strOf "const DEBUG = false;") = false ∧
    blockParse (strOf "// @whiteout-start\ns\n// @whiteout-end\n\ncode")
      = [ Decoration.Block 1 3 (strOf "s") (strOf "\ncode")] := by
  decide

/-- C8 (amended): for every Block decoration the parser emits, the committed
content is the join of a contiguous run of lines taken immediately after the
end-marker line — whatever those lines are, comment or not — and no start- or
end-marker line is ever collected into it. -/
theorem C8_committed_content_structure (content : Str) (s e : Nat) (lc cc : Str)
    (hd : Decoration.Block s e lc cc ∈ blockParse content) :
    ∃ k, cc = joinNl (((linesOf content).drop e).take k) ∧
      ∀ l ∈ ((linesOf content).drop e).take k,
        startMatch l = false ∧ endMatch l = false := by
  obtain ⟨k0, _, _, _, _, hj, heq⟩ := blockParseAux_shape _ _ hd
  injection heq with h1 h2 h3 h4
  subst h2
  subst h4
  obtain ⟨k, hk⟩ :=
    collectCommitted_sub (linesOf content) (findEnd (linesOf content) (k0 + 1) + 1) []
  rw [List.nil_append] at hk
  refine ⟨k, ?_, ?_⟩
  · rw [hk]
  · intro l hl
    have hm := collectCommitted_no_marker (linesOf content)
      (findEnd (linesOf content) (k0 + 1) + 1) [] l (by rw [hk]; exact hl)
    rcases hm with hm | hm
    · exact absurd hm (List.not_mem_nil l)
    · exact hm

theorem C8_committed_content_structure_witness :
    ∃ k, strOf "const DEBUG = false;"
        = joinNl (((linesOf
            (strOf "// @whiteout-start\nsecret\n// @whiteout-end\nconst DEBUG = false;")).drop 3).take k) ∧
      ∀ l ∈ ((linesOf
          (strOf "// @whiteout-start\nsecret\n// @whiteout-end\nconst DEBUG = false;")).drop 3).take k,
        startMatch l = false ∧ endMatch l = false :=
  C8_committed_content_structure
    (strOf "// @whiteout-start\nsecret\n// @whiteout-end\nconst DEBUG = false;")
    1 3 (strOf "secret") (strOf "const DEBUG = false;") (by decide)

/-- C9 counterexample: the input ends with a newline, but clean of its inline
decoration emits the committed value with no trailing newline — the live
`apply_decorations` joins lines without restoring the input's final
newline. -/
theorem C9_trailing_newline_counterexample :
    endsNl (strOf "let k = 1; // @whiteout: 2\n") = true ∧
    (clean (strOf "let k = 1; // @whiteout: 2\n") (strOf "p.rs") []).1 = strOf "2" ∧
    endsNl (strOf "2") = false := by
  decide

/-- C9 (amended): the trailing-newline policy holds on the identity path:
when zero decorations parse, both transforms return the content
byte-identical, so the output ends with a newline exactly when the input
does.  (When decorations apply, the engine joins the emitted lines with
`"\n"` and the input's trailing newline is not restored — see the
counterexample.) -/
theorem C9_trailing_newline_identity_path (content path : Str) (st : Store)
    (h : parseAll content = []) :
    (clean content path st).1 = content ∧ smudge content path st = content ∧
      endsNl (clean content path st).1 = endsNl content := by
  have hc := clean_id_of_nil content path st h
  exact ⟨by rw [hc], smudge_id_of_nil content path st h, by rw [hc]⟩

theorem C9_trailing_newline_identity_path_witness :
    (clean (strOf "let x = 1;\n") (strOf "f.rs") []).1 = strOf "let x = 1;\n" ∧
      smudge (strOf "let x = 1;\n") (strOf "f.rs") [] = strOf "let x = 1;\n" ∧
      endsNl (clean (strOf "let x = 1;\n") (strOf "f.rs") []).1
        = endsNl (strOf "let x = 1;\n") :=
  C9_trailing_newline_identity_path (strOf "let x = 1;\n") (strOf "f.rs") []
    (by decide)

/-- C10 counterexample: two consecutive standalone `@whiteout` marker lines.
The second marker line has a line after it, yet yields no decoration: it was
consumed as the local content of the first marker's decoration. -/
theorem C10_consecutive_markers_counterexample :
    simpleParse (strOf "// @whiteout\n// @whiteout\nx")
      = [ Decoration.Block 1 2 (strOf "// @whiteout") []] ∧
    simpleCond ((linesOf (strOf "// @whiteout\n// @whiteout\nx")).getD 1 []) = true ∧
    1 + 1 < (linesOf (strOf "// @whiteout\n// @whiteout\nx")).length ∧
    (∀ d ∈ simpleParse (strOf "// @whiteout\n// @whiteout\nx"),
      blockAnchor d ≠ some 2) := by
  decide

/-- C10 (amended): a standalone `@whiteout` marker line with a following
line, not itself consumed as the local content of a decoration anchored on
the line just before it, yields a Block decoration spanning exactly the
single next line with empty committed content; and every decoration the
simple detector emits has that shape, anchored strictly before the last line
(so a marker on the final line yields no decoration). -/
theorem C10_simple_marker_scope (content : Str) (i : Nat)
    (hc : simpleCond ((linesOf content).getD i []) = true)
    (hlt : i + 1 < (linesOf content).length)
    (hfree : ¬ ∃ d ∈ simpleParse content, blockAnchor d = some i) :
    (Decoration.Block (i + 1) (i + 2) ((linesOf content).getD (i + 1) []) []
        ∈ simpleParse content) ∧
    ∀ d ∈ simpleParse content, ∃ j, j + 1 < (linesOf content).length ∧
      d = Decoration.Block (j + 1) (j + 2) ((linesOf content).getD (j + 1) []) [] := by
  constructor
  · rcases simpleParseAux_cover ((linesOf content).length + 1) 0 i (by omega)
        (Nat.zero_le i) hlt hc with ⟨d, hd, ha⟩ | ⟨d, hd, ha⟩
    · obtain ⟨j, _, hj1, _, rfl⟩ := simpleParseAux_shape _ _ hd
      simp only [blockAnchor, Option.some.injEq] at ha
      have hji : j = i := by omega
      subst hji
      exact hd
    · exact absurd ⟨d, hd, ha⟩ hfree
  · intro d hd
    obtain ⟨j, _, hj1, _, rfl⟩ := simpleParseAux_shape _ _ hd
    exact ⟨j, hj1, rfl⟩

theorem C10_simple_marker_scope_witness :
    (Decoration.Block 1 2 ((linesOf (strOf "// @whiteout\nx")).getD 1 []) []
        ∈ simpleParse (strOf "// @whiteout\nx")) ∧
    ∀ d ∈ simpleParse (strOf "// @whiteout\nx"),
      ∃ j, j + 1 < (linesOf (strOf "// @whiteout\nx")).length ∧
        d = Decoration.Block (j + 1) (j + 2)
          ((linesOf (strOf "// @whiteout\nx")).getD (j + 1) []) [] :=
  C10_simple_marker_scope (strOf "// @whiteout\nx") 0 (by decide) (by decide)
    (by decide)

end Claims

end Whiteout
